import Mathlib

/-!
A verification development for the POSIX-shell interpreter of this
repository (`sh`), as a shallow embedding in Lean 4.

The embedding follows the Rust sources:

* `src/sh/src/interpreter/wordexp/mod.rs` — the `ExpandedWord` data model,
  `normalize`, and the field-splitting function `split_fields`;
* `src/sh/src/interpreter/wordexp/pathname.rs` — directory listing and the
  pathname-expansion step of `expand_word`;
* `src/sh/src/interpreter/mod.rs` — `find_in_path`, `perform_assignments`,
  `perform_redirections`, `interpret_simple_command`, `interpret_command`,
  `interpret_pipeline`, `interpret_conjunction`,
  `interpret_complete_command`;
* `src/sh/src/builtin/control_flow.rs` — `loop_control_flow` and the
  `break`/`continue` special builtins.

Rust `String`s are modelled by Lean `String`s; character-level scanning
(as `split_fields` performs) works on `List Char`, which is what Rust's
`str::chars` iterates.  Hash maps whose iteration order is irrelevant to
the modelled code are association lists.  Process effects (fork, exec,
wait) and the word-expansion submodules that are not part of the
repository's files (`parameter.rs`, `tilde.rs`, `pattern.rs`) are
parameters of the embedding ("oracles"); each such parameter is documented
where it is introduced.  `todo!()` panics in the source are `none`.
-/

/-! ## Expanded words and field splitting (`wordexp/mod.rs`) -/

/-- `ExpandedWordPart` from `wordexp/mod.rs`: one tagged piece of a word
that has undergone tilde, parameter, command-substitution and arithmetic
expansion.  The string content is kept as the list of its characters. -/
inductive ExpandedWordPart
  | QuotedLiteral (s : List Char)
  | UnquotedLiteral (s : List Char)
  | GeneratedUnquotedLiteral (s : List Char)
  | FieldEnd
deriving DecidableEq, Repr

/-- `ExpandedWord`: an ordered sequence of parts. -/
structure ExpandedWord where
  parts : List ExpandedWordPart
deriving DecidableEq, Repr

/-- The merge step of `ExpandedWord::normalize`: two adjacent parts with
the same literal tag merge by string concatenation; any other pair stays
separate (the catch-all arm of the Rust `match` pushes). -/
def mergeParts : ExpandedWordPart → ExpandedWordPart → Option ExpandedWordPart
  | ExpandedWordPart.UnquotedLiteral dest, ExpandedWordPart.UnquotedLiteral lit =>
    some (ExpandedWordPart.UnquotedLiteral (dest ++ lit))
  | ExpandedWordPart.GeneratedUnquotedLiteral dest, ExpandedWordPart.GeneratedUnquotedLiteral lit =>
    some (ExpandedWordPart.GeneratedUnquotedLiteral (dest ++ lit))
  | ExpandedWordPart.QuotedLiteral dest, ExpandedWordPart.QuotedLiteral lit =>
    some (ExpandedWordPart.QuotedLiteral (dest ++ lit))
  | _, _ => none

/-- The loop of `ExpandedWord::normalize`, carrying the last element of
`merged_parts` (the one the Rust code mutates in place) as `pending`. -/
def normalizeFrom (pending : ExpandedWordPart) : List ExpandedWordPart → List ExpandedWordPart
  | [] => [pending]
  | q :: rest =>
    match mergeParts pending q with
    | some merged => normalizeFrom merged rest
    | none => pending :: normalizeFrom q rest

/-- `ExpandedWord::normalize`: joins adjacent parts that are the same. -/
def ExpandedWord.normalize (w : ExpandedWord) : ExpandedWord :=
  match w.parts with
  | [] => ⟨[]⟩
  | p :: rest => ⟨normalizeFrom p rest⟩

/-- `to_string` for `ExpandedWord` (the `ToString` impl in
`wordexp/mod.rs`): concatenate the content of every part; `FieldEnd`
contributes nothing. -/
def ExpandedWordPart.contentChars : ExpandedWordPart → List Char
  | ExpandedWordPart.QuotedLiteral s => s
  | ExpandedWordPart.UnquotedLiteral s => s
  | ExpandedWordPart.GeneratedUnquotedLiteral s => s
  | ExpandedWordPart.FieldEnd => []

/-- `ExpandedWord::to_string`. -/
def ExpandedWord.toStr (w : ExpandedWord) : String :=
  ⟨(w.parts.map ExpandedWordPart.contentChars).flatten⟩

/-- `is_ifs_whitespace` from `wordexp/mod.rs`. -/
def is_ifs_whitespace (c : Char) : Bool :=
  c = ' ' || c = '\t' || c = '\n'

/-- `(l.dropWhile p)` is never longer than `l` (termination helper). -/
theorem dropWhile_length_le (p : Char → Bool) (l : List Char) :
    (l.dropWhile p).length ≤ l.length := by
  induction l with
  | nil => simp [List.dropWhile]
  | cons c cs ih =>
    simp only [List.dropWhile]
    cases p c
    · simp
    · simp
      omega

/-- Lines 220–231 of `wordexp/mod.rs`: when the accumulator is non-empty,
push it onto `parts_for_last_word` as an `UnquotedLiteral`, close the
field (normalizing it) into `result`, and reset both; when the
accumulator is empty, change nothing. -/
def flushField (acc : List Char) (parts : List ExpandedWordPart) (result : List ExpandedWord) :
    List ExpandedWordPart × List ExpandedWord :=
  if acc.isEmpty then (parts, result)
  else ([], result ++ [ExpandedWord.normalize ⟨parts ++ [ExpandedWordPart.UnquotedLiteral acc]⟩])

/-- The character loop of `split_fields` over one
`GeneratedUnquotedLiteral` (lines 195–240 of `wordexp/mod.rs`).  The
stream head is the Rust `next_char`, the tail is the remaining iterator.
A whitespace IFS separator also swallows the following whitespace run —
the Rust inner `loop` is unrolled here one character per recursive step,
keeping the run's first whitespace character at the stream head until a
non-whitespace character (or the end) is reached, which is observationally
the same scan.  Exhausting the iterator inside either separator arm is
`break 'outer`, which skips the flush at line 220 — the caller then
flushes the accumulator into `parts_for_last_word` (line 241) without
closing the field.  Returns the final accumulator, the updated
`parts_for_last_word` and the updated `result`. -/
def genLoop (ifs : List Char) (stream : List Char) (acc : List Char)
    (parts : List ExpandedWordPart) (result : List ExpandedWord) :
    List Char × List ExpandedWordPart × List ExpandedWord :=
  match stream with
  | [] => (acc, parts, result)
  | c :: cs =>
    if ifs.contains c then
      if is_ifs_whitespace c then
        match cs with
        | [] => (acc, parts, result)
        | d :: ds =>
          if is_ifs_whitespace d then
            genLoop ifs (c :: ds) acc parts result
          else
            let pr := flushField acc parts result
            genLoop ifs (d :: ds) [] pr.1 pr.2
      else
        match cs with
        | [] => (acc, parts, result)
        | d :: ds =>
          let pr := flushField acc parts result
          genLoop ifs (d :: ds) [] pr.1 pr.2
    else
      genLoop ifs cs (acc ++ [c]) parts result
termination_by stream.length
decreasing_by
  · simp
  · simp
  · simp
  · simp

unseal genLoop

/-- The part loop of `split_fields` (lines 171–246 of `wordexp/mod.rs`):
literal parts pass through into the field under construction, `FieldEnd`
closes a field, and generated text is scanned by `genLoop`, with the
final accumulator appended to `parts_for_last_word` (line 241). -/
def splitLoop (ifs : List Char) :
    List ExpandedWordPart → List ExpandedWordPart → List ExpandedWord →
    List ExpandedWordPart × List ExpandedWord
  | [], parts_for_last_word, result => (parts_for_last_word, result)
  | ExpandedWordPart.UnquotedLiteral lit :: rest, parts, result =>
    splitLoop ifs rest (parts ++ [ExpandedWordPart.UnquotedLiteral lit]) result
  | ExpandedWordPart.QuotedLiteral lit :: rest, parts, result =>
    splitLoop ifs rest (parts ++ [ExpandedWordPart.QuotedLiteral lit]) result
  | ExpandedWordPart.FieldEnd :: rest, parts, result =>
    splitLoop ifs rest [] (result ++ [ExpandedWord.normalize ⟨parts⟩])
  | ExpandedWordPart.GeneratedUnquotedLiteral lit :: rest, parts, result =>
    if lit.isEmpty then splitLoop ifs rest parts result
    else
      match genLoop ifs lit [] parts result with
      | (acc, parts', result') =>
        if acc.isEmpty then splitLoop ifs rest parts' result'
        else splitLoop ifs rest (parts' ++ [ExpandedWordPart.UnquotedLiteral acc]) result'

/-- `split_fields` from `wordexp/mod.rs`: an empty word yields no fields;
with `IFS` unset the default `" \t\n"` applies; an empty `IFS` disables
splitting; otherwise the word is normalized and scanned part by part,
and a trailing unterminated field is pushed at the end (line 247). -/
def split_fields (expanded_word : ExpandedWord) (ifs : Option (List Char)) :
    List ExpandedWord :=
  if expanded_word.parts.isEmpty then []
  else
    let ifs := ifs.getD [' ', '\t', '\n']
    if ifs.isEmpty then [expanded_word]
    else
      let normalized_word := expanded_word.normalize
      match splitLoop ifs normalized_word.parts [] [] with
      | (parts_for_last_word, result) =>
        if parts_for_last_word.isEmpty then result
        else result ++ [ExpandedWord.normalize ⟨parts_for_last_word⟩]

example :
    split_fields ⟨[ExpandedWordPart.GeneratedUnquotedLiteral ['a', ':', 'b', ':', 'c', ':']]⟩
      (some [':']) =
    [⟨[ExpandedWordPart.UnquotedLiteral ['a']]⟩,
     ⟨[ExpandedWordPart.UnquotedLiteral ['b']]⟩,
     ⟨[ExpandedWordPart.UnquotedLiteral ['c']]⟩] := by decide

example :
    split_fields ⟨[ExpandedWordPart.GeneratedUnquotedLiteral ['a', ' ', 'b', ' ', 'c', ' ']]⟩
      (some [' ']) =
    [⟨[ExpandedWordPart.UnquotedLiteral ['a']]⟩,
     ⟨[ExpandedWordPart.UnquotedLiteral ['b']]⟩,
     ⟨[ExpandedWordPart.UnquotedLiteral ['c']]⟩] := by decide

example :
    split_fields
      ⟨[ExpandedWordPart.UnquotedLiteral ['a', ':'],
        ExpandedWordPart.GeneratedUnquotedLiteral ['b', ':', 'c'],
        ExpandedWordPart.UnquotedLiteral [':', 'd']]⟩
      (some [':']) =
    [⟨[ExpandedWordPart.UnquotedLiteral ['a', ':', 'b']]⟩,
     ⟨[ExpandedWordPart.UnquotedLiteral ['c', ':', 'd']]⟩] := by decide

example :
    split_fields ⟨[ExpandedWordPart.GeneratedUnquotedLiteral []]⟩ none = [] := by decide

example :
    split_fields
      ⟨[ExpandedWordPart.GeneratedUnquotedLiteral
          "a:b/c-d-:/x y".toList]⟩ (some ":/-".toList) =
    [⟨[ExpandedWordPart.UnquotedLiteral ['a']]⟩,
     ⟨[ExpandedWordPart.UnquotedLiteral ['b']]⟩,
     ⟨[ExpandedWordPart.UnquotedLiteral ['c']]⟩,
     ⟨[ExpandedWordPart.UnquotedLiteral ['d']]⟩,
     ⟨[ExpandedWordPart.UnquotedLiteral "x y".toList]⟩] := by decide

example :
    split_fields
      ⟨[ExpandedWordPart.GeneratedUnquotedLiteral
          "  a	
	
b  	c
d  e f".toList]⟩ (some ['	', '
']) =
    [⟨[ExpandedWordPart.UnquotedLiteral "  a".toList]⟩,
     ⟨[ExpandedWordPart.UnquotedLiteral "b  ".toList]⟩,
     ⟨[ExpandedWordPart.UnquotedLiteral ['c']]⟩,
     ⟨[ExpandedWordPart.UnquotedLiteral "d  e f".toList]⟩] := by decide

example :
    split_fields
      ⟨[ExpandedWordPart.GeneratedUnquotedLiteral
          "	
   a

	  
	 word,and
	
 
	c


   	
	 ".toList]⟩ none =
    [⟨[ExpandedWordPart.UnquotedLiteral ['a']]⟩,
     ⟨[ExpandedWordPart.UnquotedLiteral "word,and".toList]⟩,
     ⟨[ExpandedWordPart.UnquotedLiteral ['c']]⟩] := by decide

example :
    split_fields
      ⟨[ExpandedWordPart.GeneratedUnquotedLiteral
          "a,b.c  d

e  f".toList]⟩ (some ",.:  
".toList) =
    [⟨[ExpandedWordPart.UnquotedLiteral ['a']]⟩,
     ⟨[ExpandedWordPart.UnquotedLiteral ['b']]⟩,
     ⟨[ExpandedWordPart.UnquotedLiteral ['c']]⟩,
     ⟨[ExpandedWordPart.UnquotedLiteral ['d']]⟩,
     ⟨[ExpandedWordPart.UnquotedLiteral ['e']]⟩,
     ⟨[ExpandedWordPart.UnquotedLiteral ['f']]⟩] := by decide

example :
    split_fields ⟨[ExpandedWordPart.UnquotedLiteral "a:b:c".toList]⟩ (some [':']) =
    [⟨[ExpandedWordPart.UnquotedLiteral "a:b:c".toList]⟩] := by decide

/-! ## Field-shape predicates for the split_fields output -/

/-- A numeric tag distinguishing the four part constructors. -/
def partTag : ExpandedWordPart → Nat
  | ExpandedWordPart.QuotedLiteral _ => 0
  | ExpandedWordPart.UnquotedLiteral _ => 1
  | ExpandedWordPart.GeneratedUnquotedLiteral _ => 2
  | ExpandedWordPart.FieldEnd => 3

/-- True exactly for `QuotedLiteral` and `UnquotedLiteral`: a part that is
neither a `FieldEnd` marker nor generated text. -/
def isLiteralPart : ExpandedWordPart → Bool
  | ExpandedWordPart.QuotedLiteral _ => true
  | ExpandedWordPart.UnquotedLiteral _ => true
  | ExpandedWordPart.GeneratedUnquotedLiteral _ => false
  | ExpandedWordPart.FieldEnd => false

/-- No two adjacent parts of the list carry the same tag. -/
def adjacentTagsDistinct : List ExpandedWordPart → Bool
  | [] => true
  | [_] => true
  | p :: q :: rest => partTag p ≠ partTag q && adjacentTagsDistinct (q :: rest)

/-- A well-shaped output field: only plain literal parts, no two adjacent
parts with the same tag. -/
def goodFieldB (w : ExpandedWord) : Bool :=
  w.parts.all isLiteralPart && adjacentTagsDistinct w.parts

theorem mergeParts_tag {p q m : ExpandedWordPart} (h : mergeParts p q = some m) :
    partTag m = partTag p := by
  cases p <;> cases q <;> simp [mergeParts] at h <;> simp [← h, partTag]

theorem mergeParts_lit {p q m : ExpandedWordPart} (hp : isLiteralPart p = true)
    (h : mergeParts p q = some m) : isLiteralPart m = true := by
  cases p <;> cases q <;> simp [mergeParts] at h <;> simp_all [← h, isLiteralPart]

theorem mergeParts_some_of_same_tag {p q : ExpandedWordPart}
    (hp : isLiteralPart p = true) (hq : isLiteralPart q = true)
    (ht : partTag p = partTag q) : (mergeParts p q).isSome := by
  cases p <;> cases q <;> simp_all [isLiteralPart, partTag, mergeParts]

theorem normalizeFrom_head_tag :
    ∀ (rest : List ExpandedWordPart) (p : ExpandedWordPart),
      ∃ h t, normalizeFrom p rest = h :: t ∧ partTag h = partTag p := by
  intro rest
  induction rest with
  | nil => intro p; exact ⟨p, [], rfl, rfl⟩
  | cons q rest ih =>
    intro p
    cases hm : mergeParts p q with
    | some m =>
      obtain ⟨h, t, heq, htag⟩ := ih m
      exact ⟨h, t, by simp [normalizeFrom, hm, heq], by rw [htag, mergeParts_tag hm]⟩
    | none => exact ⟨p, normalizeFrom q rest, by simp [normalizeFrom, hm], rfl⟩

theorem normalizeFrom_all_lit :
    ∀ (rest : List ExpandedWordPart) (p : ExpandedWordPart),
      isLiteralPart p = true → (∀ x ∈ rest, isLiteralPart x = true) →
      ∀ x ∈ normalizeFrom p rest, isLiteralPart x = true := by
  intro rest
  induction rest with
  | nil =>
    intro p hp _ x hx
    simp [normalizeFrom] at hx
    simpa [hx] using hp
  | cons q rest ih =>
    intro p hp hrest x hx
    have hq : isLiteralPart q = true := hrest q (by simp)
    have hrest' : ∀ y ∈ rest, isLiteralPart y = true := fun y hy => hrest y (by simp [hy])
    cases hm : mergeParts p q with
    | some m =>
      rw [normalizeFrom, hm] at hx
      exact ih m (mergeParts_lit hp hm) hrest' x hx
    | none =>
      rw [normalizeFrom, hm] at hx
      rcases List.mem_cons.mp hx with h | h
      · simpa [h] using hp
      · exact ih q hq hrest' x h

theorem normalizeFrom_adjacent :
    ∀ (rest : List ExpandedWordPart) (p : ExpandedWordPart),
      isLiteralPart p = true → (∀ x ∈ rest, isLiteralPart x = true) →
      adjacentTagsDistinct (normalizeFrom p rest) = true := by
  intro rest
  induction rest with
  | nil => intro p _ _; simp [normalizeFrom, adjacentTagsDistinct]
  | cons q rest ih =>
    intro p hp hrest
    have hq : isLiteralPart q = true := hrest q (by simp)
    have hrest' : ∀ y ∈ rest, isLiteralPart y = true := fun y hy => hrest y (by simp [hy])
    cases hm : mergeParts p q with
    | some m =>
      rw [normalizeFrom, hm]
      exact ih m (mergeParts_lit hp hm) hrest'
    | none =>
      rw [normalizeFrom, hm]
      obtain ⟨h, t, heq, htag⟩ := normalizeFrom_head_tag rest q
      rw [heq]
      have hne : partTag p ≠ partTag h := by
        intro hcontra
        have := mergeParts_some_of_same_tag hp hq (by rw [hcontra, htag])
        rw [hm] at this
        simp at this
      have hadj : adjacentTagsDistinct (h :: t) = true := by
        rw [← heq]; exact ih q hq hrest'
      simp [adjacentTagsDistinct, hne, hadj]

theorem normalize_good {l : List ExpandedWordPart}
    (hl : ∀ x ∈ l, isLiteralPart x = true) :
    goodFieldB (ExpandedWord.normalize ⟨l⟩) = true := by
  cases l with
  | nil => simp [ExpandedWord.normalize, goodFieldB, adjacentTagsDistinct]
  | cons p rest =>
    have hp : isLiteralPart p = true := hl p (by simp)
    have hrest : ∀ x ∈ rest, isLiteralPart x = true := fun x hx => hl x (by simp [hx])
    simp only [ExpandedWord.normalize, goodFieldB, Bool.and_eq_true, List.all_eq_true]
    exact ⟨normalizeFrom_all_lit rest p hp hrest, normalizeFrom_adjacent rest p hp hrest⟩

theorem flushField_inv (acc : List Char) {parts : List ExpandedWordPart}
    {result : List ExpandedWord}
    (hparts : parts.all isLiteralPart = true) (hres : result.all goodFieldB = true) :
    (flushField acc parts result).1.all isLiteralPart = true ∧
      (flushField acc parts result).2.all goodFieldB = true := by
  unfold flushField
  by_cases hacc : acc.isEmpty
  · simp [hacc, hparts, hres]
  · simp only [hacc, if_false, Bool.false_eq_true, List.all_append, List.all_nil]
    refine ⟨by simp, ?_⟩
    simp only [List.all_append, hres, Bool.true_and, List.all_cons, List.all_nil,
      Bool.and_true]
    apply normalize_good
    intro x hx
    rcases List.mem_append.mp hx with h | h
    · exact (List.all_eq_true.mp hparts) x h
    · simp at h
      simp [h, isLiteralPart]

/-! ## Unfolding equations for genLoop -/

theorem genLoop_nil (ifs acc : List Char) (parts : List ExpandedWordPart)
    (result : List ExpandedWord) :
    genLoop ifs [] acc parts result = (acc, parts, result) := rfl

theorem genLoop_not_sep (ifs : List Char) (c : Char) (cs acc : List Char)
    (parts : List ExpandedWordPart) (result : List ExpandedWord)
    (hc : ifs.contains c = false) :
    genLoop ifs (c :: cs) acc parts result = genLoop ifs cs (acc ++ [c]) parts result := by
  have hc' : c ∉ ifs := by simpa using hc
  rw [genLoop.eq_def]
  simp [hc']

theorem genLoop_sep_nonws (ifs : List Char) (c d : Char) (cs acc : List Char)
    (parts : List ExpandedWordPart) (result : List ExpandedWord)
    (hc : ifs.contains c = true) (hw : is_ifs_whitespace c = false) :
    genLoop ifs (c :: d :: cs) acc parts result =
      genLoop ifs (d :: cs) [] (flushField acc parts result).1 (flushField acc parts result).2 := by
  have hc' : c ∈ ifs := by simpa using hc
  rw [genLoop.eq_def]
  simp [hc', hw]

/-- Characters that are not IFS separators are only accumulated: the scan
of `a ++ stream` with every character of `a` outside `ifs` proceeds to
`stream` with `a` appended to the accumulator. -/
theorem genLoop_accumulate (ifs : List Char) :
    ∀ (a stream acc : List Char) (parts : List ExpandedWordPart) (result : List ExpandedWord),
      (∀ c ∈ a, ifs.contains c = false) →
      genLoop ifs (a ++ stream) acc parts result = genLoop ifs stream (acc ++ a) parts result := by
  intro a
  induction a with
  | nil => intro stream acc parts result _; simp
  | cons c a ih =>
    intro stream acc parts result hnot
    have hc : ifs.contains c = false := hnot c (by simp)
    have hrest : ∀ x ∈ a, ifs.contains x = false := fun x hx => hnot x (by simp [hx])
    rw [List.cons_append, genLoop_not_sep ifs c (a ++ stream) acc parts result hc,
      ih stream (acc ++ [c]) parts result hrest]
    simp

/-! ## C3: adjacent non-whitespace separators -/

/-- C3 counterexample: splitting the generated text `"a::b"` with
`IFS=":"` yields the two fields `"a"`, `"b"` — not the three fields
`"a"`, `""`, `"b"` the claim states: the empty field between the two
adjacent non-whitespace separators is dropped (the flush at line 220 of
`wordexp/mod.rs` is skipped when the accumulator is empty). -/
theorem split_fields_adjacent_separators_cex :
    split_fields ⟨[ExpandedWordPart.GeneratedUnquotedLiteral ['a', ':', ':', 'b']]⟩
        (some [':']) =
      [⟨[ExpandedWordPart.UnquotedLiteral ['a']]⟩,
       ⟨[ExpandedWordPart.UnquotedLiteral ['b']]⟩] ∧
    split_fields ⟨[ExpandedWordPart.GeneratedUnquotedLiteral ['a', ':', ':', 'b']]⟩
        (some [':']) ≠
      [⟨[ExpandedWordPart.UnquotedLiteral ['a']]⟩,
       ⟨[ExpandedWordPart.UnquotedLiteral []]⟩,
       ⟨[ExpandedWordPart.UnquotedLiteral ['b']]⟩] := by
  constructor
  · decide
  · decide

/-- C3 amended: a run of two adjacent non-whitespace IFS separators
between two separator-free non-empty chunks produces exactly the two
chunks as fields; the empty field between the adjacent separators is
dropped, never preserved.  (`"a::b"` with `IFS=":"` gives `["a", "b"]`.) -/
theorem split_fields_adjacent_nonws_separators_amended (ifs : List Char) (s : Char)
    (a b : List Char)
    (hs : ifs.contains s = true) (hw : is_ifs_whitespace s = false)
    (ha : a ≠ []) (hb : b ≠ [])
    (hanot : ∀ c ∈ a, ifs.contains c = false) (hbnot : ∀ c ∈ b, ifs.contains c = false) :
    split_fields ⟨[ExpandedWordPart.GeneratedUnquotedLiteral (a ++ s :: s :: b)]⟩ (some ifs) =
      [⟨[ExpandedWordPart.UnquotedLiteral a]⟩, ⟨[ExpandedWordPart.UnquotedLiteral b]⟩] := by
  have hifsne : ifs.isEmpty = false := by
    cases ifs with
    | nil => simp [List.contains] at hs
    | cons x xs => rfl
  obtain ⟨b0, bs, rfl⟩ : ∃ b0 bs, b = b0 :: bs := by
    cases b with
    | nil => exact absurd rfl hb
    | cons b0 bs => exact ⟨b0, bs, rfl⟩
  have hane : a.isEmpty = false := by
    cases a with
    | nil => exact absurd rfl ha
    | cons x xs => rfl
  have hfa : flushField a [] [] = ([], [⟨[ExpandedWordPart.UnquotedLiteral a]⟩]) := by
    simp [flushField, hane, ExpandedWord.normalize, normalizeFrom]
  have hgen : genLoop ifs (a ++ s :: s :: b0 :: bs) [] [] [] =
      (b0 :: bs, [], [⟨[ExpandedWordPart.UnquotedLiteral a]⟩]) := by
    rw [genLoop_accumulate ifs a (s :: s :: b0 :: bs) [] [] [] hanot, List.nil_append,
      genLoop_sep_nonws ifs s s (b0 :: bs) a [] [] hs hw, hfa]
    dsimp only
    rw [genLoop_sep_nonws ifs s b0 bs [] []
      [⟨[ExpandedWordPart.UnquotedLiteral a]⟩] hs hw]
    have hfe : flushField [] [] [⟨[ExpandedWordPart.UnquotedLiteral a]⟩] =
        ([], [⟨[ExpandedWordPart.UnquotedLiteral a]⟩]) := by
      simp [flushField]
    rw [hfe]
    dsimp only
    have hacc := genLoop_accumulate ifs (b0 :: bs) [] [] []
      [⟨[ExpandedWordPart.UnquotedLiteral a]⟩] hbnot
    rw [List.append_nil] at hacc
    rw [hacc, List.nil_append, genLoop_nil]
  have hlitne : (a ++ s :: s :: b0 :: bs).isEmpty = false := by
    cases a <;> rfl
  have hsplit : splitLoop ifs
      [ExpandedWordPart.GeneratedUnquotedLiteral (a ++ s :: s :: b0 :: bs)] [] [] =
      ([ExpandedWordPart.UnquotedLiteral (b0 :: bs)],
       [⟨[ExpandedWordPart.UnquotedLiteral a]⟩]) := by
    rw [splitLoop, hlitne]
    dsimp only
    rw [hgen]
    dsimp only
    rw [splitLoop]
    rfl
  have hnorm : (ExpandedWord.normalize
      ⟨[ExpandedWordPart.GeneratedUnquotedLiteral (a ++ s :: s :: b0 :: bs)]⟩) =
      ⟨[ExpandedWordPart.GeneratedUnquotedLiteral (a ++ s :: s :: b0 :: bs)]⟩ := by
    simp [ExpandedWord.normalize, normalizeFrom]
  rw [split_fields]
  simp [Option.getD_some, hifsne, hnorm, hsplit, ExpandedWord.normalize, normalizeFrom]

/-- Witness for the amended C3 theorem at `a = "a"`, `b = "b"`,
`IFS = ":"`: splitting `"a::b"` yields `["a", "b"]`. -/
theorem split_fields_adjacent_nonws_separators_amended_witness :
    split_fields ⟨[ExpandedWordPart.GeneratedUnquotedLiteral ['a', ':', ':', 'b']]⟩
        (some [':']) =
      [⟨[ExpandedWordPart.UnquotedLiteral ['a']]⟩,
       ⟨[ExpandedWordPart.UnquotedLiteral ['b']]⟩] :=
  split_fields_adjacent_nonws_separators_amended [':'] ':' ['a'] ['b']
    (by decide) (by decide) (by decide) (by decide)
    (by decide) (by decide)

/-! ## C4: empty IFS disables splitting -/

/-- C4 counterexample: on the word with no parts, `split_fields` with
`IFS=""` returns the empty field list, not the one-element list holding
the unchanged word (the `parts.is_empty` early return at line 155 of
`wordexp/mod.rs` precedes the empty-IFS check). -/
theorem split_fields_empty_word_cex :
    split_fields ⟨[]⟩ (some []) = [] ∧ split_fields ⟨[]⟩ (some []) ≠ [⟨[]⟩] := by
  constructor
  · decide
  · decide

/-- C4 amended: with a set-but-empty `IFS`, `split_fields` returns the
word unchanged as the single field whenever the word has at least one
part; the word with no parts instead yields no fields at all (for any
`IFS`). -/
theorem split_fields_empty_ifs_amended (w : ExpandedWord) (h : w.parts ≠ []) :
    split_fields w (some []) = [w] ∧ ∀ ifs, split_fields ⟨[]⟩ ifs = [] := by
  constructor
  · have hne : w.parts.isEmpty = false := by
      cases hp : w.parts with
      | nil => exact absurd hp h
      | cons x xs => rfl
    rw [split_fields, hne]
    rfl
  · intro ifs
    rw [split_fields]
    rfl

/-- Witness for the amended C4 theorem at the one-part word `"x"`. -/
theorem split_fields_empty_ifs_amended_witness :
    split_fields ⟨[ExpandedWordPart.UnquotedLiteral ['x']]⟩ (some []) =
        [⟨[ExpandedWordPart.UnquotedLiteral ['x']]⟩] ∧
      ∀ ifs, split_fields ⟨[]⟩ ifs = [] :=
  split_fields_empty_ifs_amended ⟨[ExpandedWordPart.UnquotedLiteral ['x']]⟩ (by decide)

/-! ## C10: shape of the fields produced by split_fields -/

theorem genLoop_inv (ifs : List Char) (stream acc : List Char)
    (parts : List ExpandedWordPart) (result : List ExpandedWord) :
    parts.all isLiteralPart = true → result.all goodFieldB = true →
    (genLoop ifs stream acc parts result).2.1.all isLiteralPart = true ∧
      (genLoop ifs stream acc parts result).2.2.all goodFieldB = true := by
  induction stream, acc, parts, result using genLoop.induct ifs with
  | case1 acc parts result =>
    intro hp hr
    rw [genLoop_nil]
    exact ⟨hp, hr⟩
  | case2 acc parts result d hc hw =>
    intro hp hr
    rw [genLoop.eq_def]
    simp only [hc, hw, if_true]
    exact ⟨hp, hr⟩
  | case3 acc parts result d hc hw e ds hwe ih =>
    intro hp hr
    rw [genLoop.eq_def]
    simp only [hc, hw, hwe, if_true]
    exact ih hp hr
  | case4 acc parts result d hc hw e ds hwe pr ih =>
    intro hp hr
    rw [genLoop.eq_def]
    simp only [hc, hw, hwe, if_true, if_false]
    have hf := flushField_inv acc hp hr
    exact ih hf.1 hf.2
  | case5 acc parts result d hc hw =>
    intro hp hr
    rw [genLoop.eq_def]
    simp only [hc, hw, if_true, if_false]
    exact ⟨hp, hr⟩
  | case6 acc parts result d hc hw e ds pr ih =>
    intro hp hr
    rw [genLoop.eq_def]
    simp only [hc, hw, if_true, if_false]
    have hf := flushField_inv acc hp hr
    exact ih hf.1 hf.2
  | case7 acc parts result d ds hc ih =>
    intro hp hr
    rw [genLoop.eq_def]
    simp only [hc, if_false]
    exact ih hp hr

theorem splitLoop_inv (ifs : List Char) :
    ∀ (input parts : List ExpandedWordPart) (result : List ExpandedWord),
      parts.all isLiteralPart = true → result.all goodFieldB = true →
      (splitLoop ifs input parts result).1.all isLiteralPart = true ∧
        (splitLoop ifs input parts result).2.all goodFieldB = true := by
  intro input
  induction input with
  | nil =>
    intro parts result hp hr
    simp only [splitLoop]
    exact ⟨hp, hr⟩
  | cons p rest ih =>
    intro parts result hp hr
    cases p with
    | UnquotedLiteral lit =>
      simp only [splitLoop]
      refine ih _ _ ?_ hr
      simp only [List.all_append, hp, Bool.true_and, List.all_cons, List.all_nil,
        Bool.and_true]
      rfl
    | QuotedLiteral lit =>
      simp only [splitLoop]
      refine ih _ _ ?_ hr
      simp only [List.all_append, hp, Bool.true_and, List.all_cons, List.all_nil,
        Bool.and_true]
      rfl
    | FieldEnd =>
      simp only [splitLoop]
      refine ih _ _ (by simp) ?_
      simp only [List.all_append, hr, Bool.true_and, List.all_cons, List.all_nil,
        Bool.and_true]
      exact normalize_good (fun x hx => (List.all_eq_true.mp hp) x hx)
    | GeneratedUnquotedLiteral lit =>
      simp only [splitLoop]
      by_cases hl : lit.isEmpty
      · simp only [hl, if_true]
        exact ih parts result hp hr
      · have hl' : lit.isEmpty = false := by simpa using hl
        simp only [hl', Bool.false_eq_true, if_false]
        have hg := genLoop_inv ifs lit [] parts result hp hr
        rcases hge : genLoop ifs lit [] parts result with ⟨acc, parts', result'⟩
        rw [hge] at hg
        dsimp only at hg ⊢
        by_cases hacc : acc.isEmpty
        · simp only [hacc, if_true]
          exact ih parts' result' hg.1 hg.2
        · have hacc' : acc.isEmpty = false := by simpa using hacc
          simp only [hacc', Bool.false_eq_true, if_false]
          refine ih _ _ ?_ hg.2
          simp only [List.all_append, hg.1, Bool.true_and, List.all_cons, List.all_nil,
            Bool.and_true]
          rfl

/-- C10: with `IFS` absent (defaulted) or non-empty, every field produced
by `split_fields` holds only plain `QuotedLiteral`/`UnquotedLiteral`
parts — no `FieldEnd`, no `GeneratedUnquotedLiteral` (surviving generated
text is re-tagged as an unquoted literal) — and no two adjacent parts of
a field carry the same tag (each output field is normalized). -/
theorem split_fields_output_fields_normalized (w : ExpandedWord) (ifs : Option (List Char))
    (hifs : ifs.getD [' ', '\t', '\n'] ≠ []) :
    ∀ f ∈ split_fields w ifs,
      f.parts.all isLiteralPart = true ∧ adjacentTagsDistinct f.parts = true := by
  intro f hf
  rw [split_fields] at hf
  by_cases hw : w.parts.isEmpty
  · simp [hw] at hf
  · have hw' : w.parts.isEmpty = false := by simpa using hw
    have hifsb : (ifs.getD [' ', '\t', '\n']).isEmpty = false := by
      cases h : ifs.getD [' ', '\t', '\n'] with
      | nil => exact absurd h hifs
      | cons x xs => rfl
    simp only [hw', hifsb, Bool.false_eq_true, if_false] at hf
    have hs := splitLoop_inv (ifs.getD [' ', '\t', '\n']) w.normalize.parts [] []
      (by simp) (by simp)
    rcases hsl : splitLoop (ifs.getD [' ', '\t', '\n']) w.normalize.parts [] [] with ⟨plw, res⟩
    rw [hsl] at hs hf
    dsimp only at hs hf
    have hgood : goodFieldB f = true := by
      by_cases hplw : plw.isEmpty
      · simp only [hplw, if_true] at hf
        exact (List.all_eq_true.mp hs.2) f hf
      · have hplw' : plw.isEmpty = false := by simpa using hplw
        simp only [hplw', Bool.false_eq_true, if_false] at hf
        rcases List.mem_append.mp hf with h | h
        · exact (List.all_eq_true.mp hs.2) f h
        · simp only [List.mem_singleton] at h
          subst h
          exact normalize_good (fun x hx => (List.all_eq_true.mp hs.1) x hx)
    rw [goodFieldB, Bool.and_eq_true] at hgood
    exact hgood

/-- Witness for C10 at a concrete word (generated text with a space, a
`FieldEnd`, and a quoted literal), the absent defaulted `IFS`, and the
first produced field. -/
theorem split_fields_output_fields_normalized_witness :
    (⟨[ExpandedWordPart.UnquotedLiteral ['x']]⟩ : ExpandedWord).parts.all
        isLiteralPart = true ∧
      adjacentTagsDistinct
        (⟨[ExpandedWordPart.UnquotedLiteral ['x']]⟩ : ExpandedWord).parts = true :=
  split_fields_output_fields_normalized
    ⟨[ExpandedWordPart.GeneratedUnquotedLiteral ['x', ' ', 'y'],
      ExpandedWordPart.FieldEnd,
      ExpandedWordPart.QuotedLiteral ['q']]⟩ none (by decide)
    ⟨[ExpandedWordPart.UnquotedLiteral ['x']]⟩ (by decide)

/-! ## The shell AST (`crate::program`, declarations used by `interpreter/mod.rs`)

The `program` module is not among the repository's files; the shapes
below are the ones `interpreter/mod.rs` consumes, as §3 of the design
describes them.  A `Word` is an unexpanded word AST; the interpreter
only ever hands it to word expansion, so it is modelled as an opaque
token interpreted by the expansion oracle. -/

/-- An unexpanded word AST, identified by a token; only the expansion
oracle gives it meaning. -/
structure Word where
  id : Nat
deriving DecidableEq, Repr

/-- `Assignment`: `name=value`. -/
structure Assignment where
  name : String
  value : Word
deriving DecidableEq, Repr

/-- `IORedirectionKind` (the source spells `RedirectOuputAppend` so). -/
inductive IORedirectionKind
  | RedirectOutput
  | RedirectOutputClobber
  | RedirectOuputAppend
  | DuplicateOutput
  | RedirectInput
  | DuplicateInput
  | OpenRW
deriving DecidableEq, Repr

/-- `RedirectionKind`. -/
inductive RedirectionKind
  | IORedirection (kind : IORedirectionKind) (file : Word)
  | HereDocument (contents : String)
deriving DecidableEq, Repr

/-- `Redirection`: an optional explicit descriptor and a kind. -/
structure Redirection where
  file_descriptor : Option Nat
  kind : RedirectionKind
deriving DecidableEq, Repr

/-- `SimpleCommand`. -/
structure SimpleCommand where
  assignments : List Assignment
  redirections : List Redirection
  words : List Word
deriving DecidableEq, Repr

/-- `Command`: `interpret_command` only handles the `SimpleCommand`
variant; compound commands and function definitions hit `todo!()`
(modelled as `none`), so their payloads are irrelevant here. -/
inductive Command
  | SimpleCommandV (simple_command : SimpleCommand)
  | CompoundCommandV
  | FunctionDefinitionV
deriving DecidableEq, Repr

/-- `Pipeline`. -/
structure Pipeline where
  commands : List Command
  negate_status : Bool
deriving DecidableEq, Repr

/-- `LogicalOp`. -/
inductive LogicalOp
  | And
  | Or
  | NoneOp
deriving DecidableEq, Repr

/-- `Conjunction` (the interpreter reads only `elements`; `is_async` is
carried but unused by `interpret_conjunction`). -/
structure Conjunction where
  elements : List (Pipeline × LogicalOp)
  is_async : Bool
deriving DecidableEq, Repr

/-- `CompleteCommand`. -/
structure CompleteCommand where
  commands : List Conjunction
deriving DecidableEq, Repr

/-! ## Interpreter state (`interpreter/mod.rs`) -/

/-- `Variable`: a shell variable's value and export flag (`export` is a
Lean keyword, hence `exported`). -/
structure Variable where
  value : String
  exported : Bool
deriving DecidableEq, Repr

/-- `Variable::new`. -/
def Variable.new (value : String) : Variable := ⟨value, false⟩

/-- `Variable::new_exported`. -/
def Variable.new_exported (value : String) : Variable := ⟨value, true⟩

/-- `Environment = HashMap<String, Variable>`, modelled as an association
list; the code never iterates it in an order-sensitive way (export
filtering for `execve` is order-irrelevant). -/
abbrev Environment := List (String × Variable)

/-- `HashMap::get`. -/
def envGet (environment : Environment) (name : String) : Option Variable :=
  (environment.find? (fun p => p.1 == name)).map (fun p => p.2)

/-- `HashMap::insert`: replace the binding if the key is present,
otherwise add it. -/
def envInsert (environment : Environment) (name : String) (v : Variable) : Environment :=
  if environment.any (fun p => p.1 == name) then
    environment.map (fun p => if p.1 == name then (name, v) else p)
  else environment ++ [(name, v)]

/-- `Interpreter` (`interpreter/mod.rs` lines 66–75).  `opened_files`
maps a descriptor number to an abstract handle for the opened file;
`functions` keeps only the defined names because every use of a function
body in the source is `todo!()`. -/
structure Interpreter where
  environment : Environment
  opened_files : List (Nat × Nat)
  functions : List String
  most_recent_pipeline_status : Int
  last_command_substitution_status : Int
  shell_pid : Int
  most_recent_background_command_pid : Int
  current_directory : String
deriving DecidableEq, Repr

/-- The oracles closing the embedding over code that is outside
`interpreter/mod.rs`:
`expandWord`/`expandWordToString` stand for `expand_word` and
`expand_word_to_string` of `wordexp` (their parameter/tilde submodules
are not among the repository's files; both take and return the
interpreter, which they may mutate); `execCommand` stands for the
fork/execve/waitpid sequence of `Interpreter::exec` and yields the raw
status the child exits with; `isFile` is the filesystem's
`Path::is_file`; `openFile` names the handle obtained by opening a path
for a redirection. -/
structure Oracles where
  expandWord : Word → Bool → Interpreter → List String × Interpreter
  expandWordToString : Word → Bool → Interpreter → String × Interpreter
  execCommand : Interpreter → String → List String → Int
  isFile : String → Bool
  openFile : String → Nat

/-- `HashMap::insert` for the opened-files table. -/
def fdInsert (files : List (Nat × Nat)) (fd handle : Nat) : List (Nat × Nat) :=
  if files.any (fun p => p.1 == fd) then
    files.map (fun p => if p.1 == fd then (fd, handle) else p)
  else files ++ [(fd, handle)]

/-- Rust `str::contains(char)`. -/
def strContainsChar (s : String) (c : Char) : Bool :=
  s.data.contains c

/-- Rust `str::split(':')` on the character list: every separator
produces a boundary, so `""` gives `[""]` and a trailing separator an
empty last chunk. -/
def splitCharList (sep : Char) : List Char → List (List Char)
  | [] => [[]]
  | d :: ds =>
    if d = sep then [] :: splitCharList sep ds
    else
      match splitCharList sep ds with
      | [] => [[d]]
      | r :: rs => (d :: r) :: rs

/-- `env_path.split(':')` as strings. -/
def splitOnColon (s : String) : List String :=
  (splitCharList ':' s.data).map (fun l => ⟨l⟩)

/-- `PathBuf::push` of a relative component (the pushed `command` never
contains `/` at the call site). -/
def pathJoin (base component : String) : String :=
  if base.data.isEmpty then component
  else if base.data.getLast? == some '/' then base ++ component
  else base ++ "/" ++ component

/-- `find_in_path` (`interpreter/mod.rs` lines 52–61): try each `PATH`
entry in order, returning the first candidate path that is a file. -/
def find_in_path (is_file : String → Bool) (command : String) (env_path : String) :
    Option String :=
  (splitOnColon env_path).findSome? (fun path =>
    let command_path := pathJoin path command
    if is_file command_path then some command_path else none)

/-- `get_special_builtin_utility`: the source's match returns `None` for
every name. -/
def get_special_builtin_utility (_name : String) : Option Unit := none

/-- `get_bultin_utility` (source spelling): returns `None` for every
name. -/
def get_bultin_utility (_name : String) : Option Unit := none

/-- `Interpreter::exec`: fork; the child installs `opened_files` with
`dup2`, builds the exported environment and calls `execve`; the parent
waits and reports `WEXITSTATUS`, the low eight bits of the child's exit
status.  The child's behaviour is the `execCommand` oracle. -/
def Interpreter.exec (O : Oracles) (self : Interpreter) (command : String)
    (args : List String) : Int :=
  O.execCommand self command args % 256

/-- `Interpreter::perform_redirections`: expand each target word with
`expand_word_to_string`; the output kinds (`>`, `>|`, `>>`) open the
file and store it at the explicit descriptor or stdout (1); the other
kinds and here-documents are not implemented (empty match arms). -/
def perform_redirections (O : Oracles) (start : Interpreter)
    (redirections : List Redirection) : Interpreter :=
  redirections.foldl
    (fun ip redir =>
      match redir.kind with
      | RedirectionKind.IORedirection kind file =>
        match O.expandWordToString file false ip with
        | (path, ip') =>
          match kind with
          | IORedirectionKind.RedirectOutput
          | IORedirectionKind.RedirectOutputClobber
          | IORedirectionKind.RedirectOuputAppend =>
            let files := fdInsert ip'.opened_files (redir.file_descriptor.getD 1) (O.openFile path)
            { ip' with opened_files := files }
          | _ => ip'
      | RedirectionKind.HereDocument _ => ip)
    start

/-- `Interpreter::perform_assignments`: expand each value with
`expand_word_to_string` (as an assignment) and insert a non-exported
variable. -/
def perform_assignments (O : Oracles) (start : Interpreter)
    (assignments : List Assignment) : Interpreter :=
  assignments.foldl
    (fun ip assignment =>
      match O.expandWordToString assignment.value true ip with
      | (word_str, ip') =>
        let env := envInsert ip'.environment assignment.name (Variable.new word_str)
        { ip' with environment := env })
    start

/-- The `expanded_words` accumulation loop of `interpret_simple_command`
(lines 182–184): expand every word, concatenating the produced fields
and threading the interpreter. -/
def expand_words_into (O : Oracles) : List Word → Interpreter → List String × Interpreter
  | [], ip => ([], ip)
  | w :: ws, ip =>
    match O.expandWord w false ip with
    | (fields, ip') =>
      match expand_words_into O ws ip' with
      | (rest, ip'') => (fields ++ rest, ip'')

/-- The outcome of interpreting one command in the parent shell process:
the reported status, the interpreter state afterwards, and the lines the
parent printed to standard error. -/
structure StepResult where
  status : Int
  interp : Interpreter
  log : List String
deriving DecidableEq, Repr

/-! ## Command interpretation (`interpreter/mod.rs` lines 178–333) -/

/-- `interpret_simple_command` (lines 178–238).  `todo!()` arms — special
builtins and functions (both reached after `perform_assignments` on the
shell itself), regular builtins, and the `unwrap` on a missing `PATH` —
are `none`.  With no expanded words, assignments apply to the shell
itself and the status is `last_command_substitution_status` (redirections
then only touch a discarded clone).  With a command word, assignments
and redirections apply to a clone (`command_environment`), and the word
is run directly when it contains `/`, otherwise through `PATH` search;
an unfound command prints `…: command not found` and reports 127. -/
def interpret_simple_command (O : Oracles) (self : Interpreter)
    (simple_command : SimpleCommand) : Option StepResult :=
  let ip := { self with last_command_substitution_status := 0 }
  match expand_words_into O simple_command.words ip with
  | (expanded_words, ip1) =>
    match expanded_words with
    | [] =>
      let ip2 := perform_assignments O ip1 simple_command.assignments
      some ⟨ip2.last_command_substitution_status, ip2, []⟩
    | command_word :: arguments =>
      if strContainsChar command_word '/' then
        let command_environment :=
          perform_redirections O (perform_assignments O ip1 simple_command.assignments)
            simple_command.redirections
        some ⟨Interpreter.exec O command_environment command_word arguments, ip1, []⟩
      else
        match get_special_builtin_utility command_word with
        | some _ => none
        | none =>
          match (if ip1.functions.contains command_word then some () else none) with
          | some _ => none
          | none =>
            match get_bultin_utility command_word with
            | some _ => none
            | none =>
              let command_environment :=
                perform_redirections O
                  (perform_assignments O ip1 simple_command.assignments)
                  simple_command.redirections
              match envGet ip1.environment "PATH" with
              | none => none
              | some path_var =>
                match find_in_path O.isFile command_word path_var.value with
                | some command =>
                  some ⟨Interpreter.exec O command_environment command arguments, ip1, []⟩
                | none =>
                  some ⟨127, ip1, [command_word ++ ": command not found"]⟩

/-- `interpret_command` (lines 240–248): only simple commands are
implemented; compound commands and function definitions are `todo!()`. -/
def interpret_command (O : Oracles) (self : Interpreter) : Command → Option StepResult
  | Command.SimpleCommandV simple_command => interpret_simple_command O self simple_command
  | _ => none

/-- The status negation at lines 303–307 of `interpreter/mod.rs`:
`(pipeline_exit_status == 0) as i32`. -/
def negateIf (negate : Bool) (status : Int) : Int :=
  if negate then (if status = 0 then 1 else 0) else status

/-- `interpret_pipeline` (lines 250–308).  One command: run it in the
current shell process.  Several commands: every stage runs in a forked
child on a copy of the parent's state, so the parent's state is
untouched and nothing a stage prints goes through the parent; the parent
waits only on the last stage and reads `WEXITSTATUS` — the low eight
bits of the status the last stage's `interpret_command` exits with.  An
empty command list would panic at `commands.last().unwrap()` (`none`
here; pipelines are non-empty by construction).  `negate_status` then
maps 0 to 1 and everything else to 0. -/
def interpret_pipeline (O : Oracles) (self : Interpreter) (pipeline : Pipeline) :
    Option StepResult :=
  match pipeline.commands with
  | [] => none
  | [command] =>
    match interpret_command O self command with
    | none => none
    | some r => some ⟨negateIf pipeline.negate_status r.status, r.interp, r.log⟩
  | c0 :: c1 :: rest =>
    match interpret_command O self ((c1 :: rest).getLast (by simp)) with
    | none => none
    | some r => some ⟨negateIf pipeline.negate_status (r.status % 256), self, []⟩

/-- The loop of `interpret_conjunction` (lines 310–321), carrying the
`status` variable: run the element's pipeline; stop with its status when
`status != 0 && op == And` or `status == 0 && op == Or`; otherwise
continue, and return the carried status when the elements are
exhausted. -/
def interpret_conjunction_elements (O : Oracles) :
    List (Pipeline × LogicalOp) → Int → Interpreter → List String → Option StepResult
  | [], status, ip, log => some ⟨status, ip, log⟩
  | (pipeline, op) :: rest, _, ip, log =>
    match interpret_pipeline O ip pipeline with
    | none => none
    | some r =>
      if r.status ≠ 0 ∧ op = LogicalOp.And then some ⟨r.status, r.interp, log ++ r.log⟩
      else if r.status = 0 ∧ op = LogicalOp.Or then some ⟨r.status, r.interp, log ++ r.log⟩
      else interpret_conjunction_elements O rest r.status r.interp (log ++ r.log)

/-- `interpret_conjunction`: `status` starts at 0. -/
def interpret_conjunction (O : Oracles) (self : Interpreter) (conjunction : Conjunction) :
    Option StepResult :=
  interpret_conjunction_elements O conjunction.elements 0 self []

/-- The loop of `interpret_complete_command` (lines 323–327): interpret
every conjunction in order; each conjunction's returned status is
discarded. -/
def interpret_conjunctions (O : Oracles) :
    Interpreter → List Conjunction → Option (Interpreter × List String)
  | ip, [] => some (ip, [])
  | ip, conjunction :: rest =>
    match interpret_conjunction O ip conjunction with
    | none => none
    | some r =>
      match interpret_conjunctions O r.interp rest with
      | none => none
      | some (ip', log') => some (ip', r.log ++ log')

/-- `interpret_complete_command`. -/
def interpret_complete_command (O : Oracles) (self : Interpreter)
    (command : CompleteCommand) : Option (Interpreter × List String) :=
  interpret_conjunctions O self command.commands

/-! ## C1: conjunction evaluation order and short-circuit -/

/-- The claim's own wording of conjunction evaluation, as a second
definition for comparison: run the `(pipeline, op)` elements left to
right; stop early exactly when the just-run pipeline's status is nonzero
and the element's operator is `And`, or the status is zero and the
operator is `Or`; otherwise continue; the value returned is the status
of the last pipeline actually run. -/
def conjunction_claim_run (O : Oracles) :
    List (Pipeline × LogicalOp) → Interpreter → List String → Option StepResult
  | [], ip, log => some ⟨0, ip, log⟩
  | (pipeline, op) :: rest, ip, log =>
    match interpret_pipeline O ip pipeline with
    | none => none
    | some r =>
      if (r.status ≠ 0 ∧ op = LogicalOp.And) ∨ (r.status = 0 ∧ op = LogicalOp.Or) then
        some ⟨r.status, r.interp, log ++ r.log⟩
      else
        match rest with
        | [] => some ⟨r.status, r.interp, log ++ r.log⟩
        | _ :: _ => conjunction_claim_run O rest r.interp (log ++ r.log)

theorem interpret_conjunction_elements_eq_claim (O : Oracles) :
    ∀ (rest : List (Pipeline × LogicalOp)) (pipeline : Pipeline) (op : LogicalOp)
      (st : Int) (ip : Interpreter) (log : List String),
      interpret_conjunction_elements O ((pipeline, op) :: rest) st ip log =
        conjunction_claim_run O ((pipeline, op) :: rest) ip log := by
  intro rest
  induction rest with
  | nil =>
    intro pipeline op st ip log
    rw [interpret_conjunction_elements, conjunction_claim_run]
    cases interpret_pipeline O ip pipeline with
    | none => rfl
    | some r =>
      dsimp only
      by_cases h1 : r.status ≠ 0 ∧ op = LogicalOp.And
      · simp [h1]
      · by_cases h2 : r.status = 0 ∧ op = LogicalOp.Or
        · simp [h1, h2]
        · simp [h1, h2, interpret_conjunction_elements]
  | cons e rest ih =>
    intro pipeline op st ip log
    rw [interpret_conjunction_elements, conjunction_claim_run]
    cases interpret_pipeline O ip pipeline with
    | none => rfl
    | some r =>
      dsimp only
      by_cases h1 : r.status ≠ 0 ∧ op = LogicalOp.And
      · simp [h1]
      · by_cases h2 : r.status = 0 ∧ op = LogicalOp.Or
        · simp [h1, h2]
        · rcases e with ⟨p2, op2⟩
          simp only [h1, h2, if_false]
          rw [ih p2 op2 r.status r.interp (log ++ r.log)]
          simp [h1, h2]

/-- C1: `interpret_conjunction` runs the conjunction's `(pipeline, op)`
elements left to right and stops early exactly when the just-run
pipeline's status is nonzero and the operator is `And`, or the status is
zero and the operator is `Or`; the value returned is the status of the
last pipeline actually run (`conjunction_claim_run` states the claim's
wording; the two agree on every conjunction and state). -/
theorem interpret_conjunction_left_to_right_short_circuit (O : Oracles)
    (self : Interpreter) (conjunction : Conjunction) :
    interpret_conjunction O self conjunction =
      conjunction_claim_run O conjunction.elements self [] := by
  rw [interpret_conjunction]
  cases hc : conjunction.elements with
  | nil => rfl
  | cons e rest =>
    rcases e with ⟨pipeline, op⟩
    exact interpret_conjunction_elements_eq_claim O rest pipeline op 0 self []

/-! ## C2: pipeline status -/

/-- C2: the status `interpret_pipeline` reports is the last command's.
A single-command pipeline runs the command in the current shell process
and reports its status with the state threaded through; a multi-command
pipeline reports the last stage's wait status — the low eight bits of
the status the last stage exits with — while the parent's state is
untouched and earlier stages' statuses are discarded (the parent never
waits on them).  With `negate_status` set, the reported status is the
boolean inversion: 1 if the pipeline status was 0, otherwise 0. -/
theorem interpret_pipeline_reports_last_command_status (O : Oracles) (self : Interpreter)
    (pipeline : Pipeline) (hne : pipeline.commands ≠ []) (r : StepResult)
    (hlast : interpret_command O self (pipeline.commands.getLast hne) = some r) :
    (pipeline.commands.length = 1 →
      interpret_pipeline O self pipeline =
        some ⟨if pipeline.negate_status then (if r.status = 0 then 1 else 0) else r.status,
              r.interp, r.log⟩) ∧
    (pipeline.commands.length ≠ 1 →
      interpret_pipeline O self pipeline =
        some ⟨if pipeline.negate_status then (if r.status % 256 = 0 then 1 else 0)
              else r.status % 256, self, []⟩) := by
  rcases pipeline with ⟨cmds, neg⟩
  cases cmds with
  | nil => exact absurd rfl hne
  | cons c0 tl =>
    cases tl with
    | nil =>
      simp only [List.getLast_singleton] at hlast
      constructor
      · intro _
        rw [interpret_pipeline]
        dsimp only
        rw [hlast]
        rfl
      · intro h
        simp at h
    | cons c1 rest =>
      have hgl : (c0 :: c1 :: rest).getLast hne = (c1 :: rest).getLast (by simp) := by
        exact List.getLast_cons (by simp)
      rw [hgl] at hlast
      constructor
      · intro h
        simp at h
      · intro _
        rw [interpret_pipeline]
        dsimp only
        rw [hlast]
        rfl

/-! ## Concrete fixtures for witnesses and the C8 record -/

/-- A word token for the fixtures. -/
def wordW : Word := ⟨0⟩

/-- A concrete oracle: every word expands to the single field
`"nosuchcmd"`, assignment values expand to `"v"`, no path is a file. -/
def testOracle : Oracles where
  expandWord := fun _ _ ip => (["nosuchcmd"], ip)
  expandWordToString := fun _ _ ip => ("v", ip)
  execCommand := fun _ _ _ => 0
  isFile := fun _ => false
  openFile := fun _ => 0

/-- A concrete interpreter state with `PATH=/bin` and all counters 0. -/
def testInterp : Interpreter where
  environment := [("PATH", ⟨"/bin", true⟩)]
  opened_files := []
  functions := []
  most_recent_pipeline_status := 0
  last_command_substitution_status := 0
  shell_pid := 1
  most_recent_background_command_pid := 0
  current_directory := "/"

/-- `nosuchcmd` — a simple command whose one word expands to a name that
is no builtin, no function, and no file on `PATH`. -/
def testSimpleCommand : SimpleCommand := ⟨[], [], [wordW]⟩

def testCommand : Command := Command.SimpleCommandV testSimpleCommand

def testPipeline : Pipeline := ⟨[testCommand], false⟩

def testConjunction : Conjunction := ⟨[(testPipeline, LogicalOp.NoneOp)], false⟩

def testCompleteCommand : CompleteCommand := ⟨[testConjunction]⟩

/-- Witness for C2 at the single-command pipeline `nosuchcmd` (status
127): the theorem applied at concrete input. -/
theorem interpret_pipeline_reports_last_command_status_witness :
    interpret_pipeline testOracle testInterp testPipeline =
      some ⟨127, testInterp, ["nosuchcmd: command not found"]⟩ := by
  have h := interpret_pipeline_reports_last_command_status testOracle testInterp
    testPipeline (by decide) ⟨127, testInterp, ["nosuchcmd: command not found"]⟩
    (by decide)
  exact h.1 (by decide)

/-! ## C5: scoping of a simple command's leading assignments -/

/-- C5: when the expanded word list is non-empty, the leading assignments
(and redirections) are applied only to the discarded clone
`command_environment`, so whenever `interpret_simple_command` completes,
the parent interpreter's environment is exactly the post-word-expansion
environment — the assignments never reach it.  When the expanded word
list is empty, the assignments are applied to the parent interpreter
itself and persist in the returned state (redirections then only touch a
discarded clone, and the status is the last command substitution
status).  Word expansion itself is the oracle, so the parent environment
is compared against the post-expansion state `ip1`. -/
theorem simple_command_assignment_scoping (O : Oracles) (self : Interpreter)
    (sc : SimpleCommand) (ws : List String) (ip1 : Interpreter)
    (hexp : expand_words_into O sc.words
      { self with last_command_substitution_status := 0 } = (ws, ip1)) :
    (∀ r : StepResult, ws ≠ [] → interpret_simple_command O self sc = some r →
        r.interp.environment = ip1.environment) ∧
    (ws = [] → interpret_simple_command O self sc =
        some ⟨(perform_assignments O ip1 sc.assignments).last_command_substitution_status,
              perform_assignments O ip1 sc.assignments, []⟩) := by
  constructor
  · intro r hws hr
    rw [interpret_simple_command] at hr
    dsimp only at hr
    rw [hexp] at hr
    cases ws with
    | nil => exact absurd rfl hws
    | cons w0 args =>
      dsimp only at hr
      by_cases hsl : strContainsChar w0 '/'
      · simp only [hsl, if_true] at hr
        cases hr
        rfl
      · have hsl' : strContainsChar w0 '/' = false := by simpa using hsl
        simp only [hsl', Bool.false_eq_true, if_false, get_special_builtin_utility,
          get_bultin_utility] at hr
        by_cases hfn : ip1.functions.contains w0
        · simp only [hfn, if_true] at hr
          cases hr
        · have hfn' : ip1.functions.contains w0 = false := by simpa using hfn
          simp only [hfn', Bool.false_eq_true, if_false] at hr
          cases hpath : envGet ip1.environment "PATH" with
          | none =>
            rw [hpath] at hr
            cases hr
          | some path_var =>
            rw [hpath] at hr
            dsimp only at hr
            cases hfind : find_in_path O.isFile w0 path_var.value with
            | some command =>
              rw [hfind] at hr
              cases hr
              rfl
            | none =>
              rw [hfind] at hr
              cases hr
              rfl
  · intro hws
    subst hws
    rw [interpret_simple_command]
    dsimp only
    rw [hexp]

/-- Witness for C5 at a simple command carrying the assignment
`X=…` and one command word, under the concrete oracle: the command
completes with status 127 and the parent environment is exactly the
starting one — the assignment never reached it. -/
theorem simple_command_assignment_scoping_witness :
    interpret_simple_command testOracle testInterp ⟨[⟨"X", wordW⟩], [], [wordW]⟩ =
      some ⟨127, testInterp, ["nosuchcmd: command not found"]⟩ ∧
    (⟨127, testInterp, ["nosuchcmd: command not found"]⟩ : StepResult).interp.environment =
      testInterp.environment := by
  refine ⟨by decide, ?_⟩
  have h := simple_command_assignment_scoping testOracle testInterp
    ⟨[⟨"X", wordW⟩], [], [wordW]⟩ ["nosuchcmd"] testInterp (by decide)
  exact h.1 ⟨127, testInterp, ["nosuchcmd: command not found"]⟩ (by decide) (by decide)

/-! ## C7: command not found -/

/-- C7: a simple command whose first expanded word contains no slash and
names no special builtin (the source's table is empty), no function, no
regular builtin (empty table), and no file on `PATH`, completes with
status 127 after printing `word: command not found` to standard error;
and the complete-command loop keeps interpreting the remaining
conjunctions regardless of the status a conjunction returned — the
failure does not abort the list. -/
theorem command_not_found_status_127_and_list_continues (O : Oracles) (self : Interpreter)
    (sc : SimpleCommand) (w0 : String) (args : List String) (ip1 : Interpreter)
    (path_var : Variable)
    (hexp : expand_words_into O sc.words
      { self with last_command_substitution_status := 0 } = (w0 :: args, ip1))
    (hslash : strContainsChar w0 '/' = false)
    (hfn : ip1.functions.contains w0 = false)
    (hpath : envGet ip1.environment "PATH" = some path_var)
    (hfind : find_in_path O.isFile w0 path_var.value = none) :
    interpret_simple_command O self sc =
      some ⟨127, ip1, [w0 ++ ": command not found"]⟩ ∧
    (∀ (conjunction : Conjunction) (rest : List Conjunction) (ip : Interpreter)
        (r : StepResult),
      interpret_conjunction O ip conjunction = some r →
      interpret_conjunctions O ip (conjunction :: rest) =
        (interpret_conjunctions O r.interp rest).map (fun p => (p.1, r.log ++ p.2))) := by
  constructor
  · rw [interpret_simple_command]
    dsimp only
    rw [hexp]
    dsimp only
    simp only [hslash, Bool.false_eq_true, if_false, get_special_builtin_utility,
      get_bultin_utility, hfn, hpath]
    rw [hfind]
  · intro conjunction rest ip r hconj
    rw [interpret_conjunctions]
    rw [hconj]
    dsimp only
    cases interpret_conjunctions O r.interp rest with
    | none => rfl
    | some p => rfl

/-- Witness for C7: the concrete `nosuchcmd` fixture reports 127 with
the diagnostic on standard error. -/
theorem command_not_found_status_127_witness :
    interpret_simple_command testOracle testInterp testSimpleCommand =
      some ⟨127, testInterp, ["nosuchcmd: command not found"]⟩ :=
  (command_not_found_status_127_and_list_continues testOracle testInterp
    testSimpleCommand "nosuchcmd" [] testInterp ⟨"/bin", true⟩
    (by decide) (by decide) (by decide) (by decide) (by decide)).1

/-! ## C8: the most-recent-pipeline-status field is never written -/

/-- C8 record: interpreting the complete command `nosuchcmd` returns the
conjunction status 127, yet the interpreter that
`interpret_complete_command` leaves behind is the unchanged starting
state — its `most_recent_pipeline_status` is still 0, not 127: no code
path of `interpreter/mod.rs` ever assigns that field. -/
theorem most_recent_pipeline_status_not_recorded :
    interpret_conjunction testOracle testInterp testConjunction =
      some ⟨127, testInterp, ["nosuchcmd: command not found"]⟩ ∧
    interpret_complete_command testOracle testInterp testCompleteCommand =
      some (testInterp, ["nosuchcmd: command not found"]) ∧
    testInterp.most_recent_pipeline_status = 0 := by
  refine ⟨by decide, by decide, rfl⟩

/-! ## Control flow builtins (`builtin/control_flow.rs`) -/

/-- `ControlFlowState` (declared in the `shell` module, §4.7 of the
design): the interpreter-wide control-flow signal. -/
inductive ControlFlowState
  | NoneState
  | Break (n : Nat)
  | Continue (n : Nat)
  | Return
deriving DecidableEq, Repr

/-- The fields of `Shell` that `control_flow.rs` reads and writes
(`loop_depth` and the depth counters are `u32`, hence `Nat`). -/
structure Shell where
  loop_depth : Nat
  control_flow_state : ControlFlowState
  function_call_depth : Nat
  dot_script_depth : Nat
deriving DecidableEq, Repr

/-- Digits accumulation for `parseI32`. -/
def digitsToNat : List Char → Nat → Option Nat
  | [], acc => some acc
  | c :: cs, acc =>
    if c.isDigit then digitsToNat cs (acc * 10 + (c.toNat - '0'.toNat)) else none

/-- Rust `str::parse::<i32>()`: an optional sign followed by one or more
decimal digits, rejected on overflow of the 32-bit range. -/
def parseI32 (s : String) : Option Int :=
  match s.data with
  | [] => none
  | '+' :: rest =>
    if rest.isEmpty then none
    else (digitsToNat rest 0).bind fun n =>
      if n ≤ 2147483647 then some (Int.ofNat n) else none
  | '-' :: rest =>
    if rest.isEmpty then none
    else (digitsToNat rest 0).bind fun n =>
      if n ≤ 2147483648 then some (-(Int.ofNat n)) else none
  | l =>
    (digitsToNat l 0).bind fun n =>
      if n ≤ 2147483647 then some (Int.ofNat n) else none

/-- `loop_control_flow` (`control_flow.rs` lines 6–36).  Outside any
loop: an error (state unchanged).  More than one argument: an error.
The optional argument parses as an `i32`, defaulting to 1; a value below
1 is a usage error (state unchanged); otherwise the control-flow state
becomes `state (min loop_depth n)` — the requested level clamped to the
current loop nesting depth — and the builtin returns 0. -/
def loop_control_flow (args : List String) (shell : Shell) (name : String)
    (state : Nat → ControlFlowState) : Shell × Except String Int :=
  if shell.loop_depth = 0 then
    (shell, Except.error (name ++ ": '" ++ name ++
      "' can only be used inside 'for', 'while' and 'until' loops"))
  else if args.length > 1 then
    (shell, Except.error (name ++ ": too many arguments"))
  else
    let n : Except String Int :=
      match args.head? with
      | some a =>
        match parseI32 a with
        | some n => Except.ok n
        | none => Except.error (name ++ ": expected numeric argument")
      | none => Except.ok 1
    match n with
    | Except.error e => (shell, Except.error e)
    | Except.ok n =>
      if n < 1 then
        (shell, Except.error (name ++ ": argument has to be bigger than 0"))
      else
        ({ shell with control_flow_state := state (min shell.loop_depth n.toNat) },
         Except.ok 0)

/-- The `break` special builtin (`Break::exec`). -/
def Break_exec (args : List String) (shell : Shell) : Shell × Except String Int :=
  loop_control_flow args shell "break" ControlFlowState.Break

/-- The `continue` special builtin (`Continue::exec`; the source passes
the name `"break"` here too, so its error messages say `break`). -/
def Continue_exec (args : List String) (shell : Shell) : Shell × Except String Int :=
  loop_control_flow args shell "break" ControlFlowState.Continue

/-- C6: invoking `break`/`continue` with one argument parsing to `n`:
outside any loop both fail with an error and leave the shell unchanged;
inside a loop with `n < 1` both fail with the usage error and leave the
shell (so the control-flow state) unchanged; otherwise the control-flow
state is set to `Break (min loop_depth n)` respectively
`Continue (min loop_depth n)` — a request for more levels than are open
is clamped to the loop nesting depth, not an error — and 0 is
returned. -/
theorem loop_control_flow_clamps_to_depth (shell : Shell) (arg : String) (n : Int)
    (hparse : parseI32 arg = some n) :
    (shell.loop_depth = 0 →
      Break_exec [arg] shell = (shell, Except.error
        ("break: 'break' can only be used inside 'for', 'while' and 'until' loops")) ∧
      Continue_exec [arg] shell = (shell, Except.error
        ("break: 'break' can only be used inside 'for', 'while' and 'until' loops"))) ∧
    (shell.loop_depth ≠ 0 → n < 1 →
      Break_exec [arg] shell = (shell, Except.error
        "break: argument has to be bigger than 0") ∧
      Continue_exec [arg] shell = (shell, Except.error
        "break: argument has to be bigger than 0")) ∧
    (shell.loop_depth ≠ 0 → 1 ≤ n →
      Break_exec [arg] shell =
        ({ shell with control_flow_state :=
            ControlFlowState.Break (min shell.loop_depth n.toNat) }, Except.ok 0) ∧
      Continue_exec [arg] shell =
        ({ shell with control_flow_state :=
            ControlFlowState.Continue (min shell.loop_depth n.toNat) }, Except.ok 0)) := by
  refine ⟨?_, ?_, ?_⟩
  · intro hd
    rw [Break_exec, Continue_exec, loop_control_flow, loop_control_flow]
    simp [hd]
  · intro hd hn
    rw [Break_exec, Continue_exec, loop_control_flow, loop_control_flow]
    simp only [hd, if_false, List.length_cons, List.length_nil, List.head?_cons, hparse]
    have : ¬(1 : Nat) + 0 > 1 := by omega
    simp [this, hn]
  · intro hd hn
    rw [Break_exec, Continue_exec, loop_control_flow, loop_control_flow]
    simp only [hd, if_false, List.length_cons, List.length_nil, List.head?_cons, hparse]
    have h1 : ¬(1 : Nat) + 0 > 1 := by omega
    have h2 : ¬n < 1 := by omega
    simp [h1, h2, hd]

/-- Witness for C6 at `break 5`/`continue 5` inside two nested loops:
the level is clamped to 2. -/
theorem loop_control_flow_clamps_to_depth_witness :
    Break_exec ["5"] ⟨2, ControlFlowState.NoneState, 0, 0⟩ =
      (⟨2, ControlFlowState.Break 2, 0, 0⟩, Except.ok 0) ∧
    Continue_exec ["5"] ⟨2, ControlFlowState.NoneState, 0, 0⟩ =
      (⟨2, ControlFlowState.Continue 2, 0, 0⟩, Except.ok 0) :=
  (loop_control_flow_clamps_to_depth ⟨2, ControlFlowState.NoneState, 0, 0⟩ "5" 5
    (by decide)).2.2 (by decide) (by decide)

/-! ## Pathname expansion (`wordexp/pathname.rs` and `expand_word`) -/

/-- `DirEntry` from `pathname.rs`: a file or directory name inside a
directory. -/
inductive DirEntry
  | File (name : String)
  | Dir (name : String)
deriving DecidableEq, Repr

/-- The `FileSystem` trait: `read_dir(path) -> DirContent`, the
directory-listing capability (`DefaultFileSystem` reads the real
filesystem; here it is the abstract collaborator, as the trait is
written to allow). -/
abbrev FileSystem := String → List DirEntry

/-- Modelled from the spec: `pattern.rs` (the `FilenamePattern` type, its
constructor and its `matches_all`/`Into<String>` items) is not among the
repository's files.  Per the design (§3, §4.1), a compiled pattern is
split into path components and matched component-wise, and "on no match,
the literal pattern text is kept verbatim" — so `Into<String>` returns
the field's literal text, kept here in `text`; the component count, the
absolute-path flag, and the component matcher are abstract. -/
structure FilenamePattern where
  text : String
  component_count : Nat
  is_absolute : Bool
  matches_all : Nat → String → Bool

/-- Modelled from the spec: the compilation step of
`FilenamePattern::new` on an expanded word, abstract except that the
pattern's literal text is the word's text (`ExpandedWord::to_string`). -/
structure PatternCompiler where
  componentCountOf : ExpandedWord → Nat
  isAbsoluteOf : ExpandedWord → Bool
  matcherOf : ExpandedWord → Nat → String → Bool

/-- `FilenamePattern::new` over the abstract compiler. -/
def FilenamePattern.new (pc : PatternCompiler) (field : ExpandedWord) : FilenamePattern :=
  { text := field.toStr
    component_count := pc.componentCountOf field
    is_absolute := pc.isAbsoluteOf field
    matches_all := pc.matcherOf field }

/-- The entry loop of `list_files_rec` (`pathname.rs` lines 48–92) over
the listed entries of `current_directory`.  A file is collected when the
pattern is exhausted (`component_index = component_count`) and the name
matches.  A directory whose name matches is collected when the pattern
is exhausted, and otherwise descended into with the next component
index; prefix and current directory extend by the entry name.  The
`component_index ≤ component_count` bound holds on every reachable call
(the index starts at 1, the count is positive, and the index only grows
while strictly below the count); the final `else []` arm records that
bound for termination and is never reached. -/
def list_files_rec_go (filesystem : FileSystem) (pattern : FilenamePattern) :
    Nat → String → String → List DirEntry → List String
  | _, _, _, [] => []
  | ci, cur, pre, DirEntry.File file_name :: entries =>
    (if ci = pattern.component_count ∧ pattern.matches_all ci file_name then
      [pathJoin pre file_name]
    else []) ++ list_files_rec_go filesystem pattern ci cur pre entries
  | ci, cur, pre, DirEntry.Dir dir_name :: entries =>
    (if pattern.matches_all ci dir_name then
      if ci = pattern.component_count then [pathJoin pre dir_name]
      else if ci < pattern.component_count then
        list_files_rec_go filesystem pattern (ci + 1) (pathJoin cur dir_name)
          (pathJoin pre dir_name) (filesystem (pathJoin cur dir_name))
      else []
    else []) ++ list_files_rec_go filesystem pattern ci cur pre entries
termination_by ci _ _ entries => (pattern.component_count - ci, entries.length)
decreasing_by
  all_goals first
    | exact Prod.Lex.right _ (by simp only [List.length_cons]; omega)
    | exact Prod.Lex.left _ _ (by omega)

unseal list_files_rec_go

/-- `list_files_rec`: scan the entries of the current directory. -/
def list_files_rec (filesystem : FileSystem) (pattern : FilenamePattern)
    (component_index : Nat) (current_directory prefixPath : String) : List String :=
  list_files_rec_go filesystem pattern component_index current_directory prefixPath
    (filesystem current_directory)

/-- `Vec::sort` on the collected paths (stable insertion sort;
lexicographic string order, which on UTF-8 agrees with byte order). -/
def insertSorted (x : String) : List String → List String
  | [] => [x]
  | y :: ys => if x ≤ y then x :: y :: ys else y :: insertSorted x ys

def sortStrings : List String → List String
  | [] => []
  | x :: xs => insertSorted x (sortStrings xs)

/-- `list_files` (`pathname.rs` lines 94–128): nothing to match when the
pattern has no components; an absolute pattern starts at `/` with prefix
`/`, a relative one at the given directory with an empty prefix; the
collected paths are sorted.  (`glob` wraps this with the real
filesystem.) -/
def list_files (filesystem : FileSystem) (pattern : FilenamePattern)
    (current_directory : String) : List String :=
  if pattern.component_count = 0 then []
  else
    sortStrings
      (if pattern.is_absolute then list_files_rec filesystem pattern 1 "/" "/"
       else list_files_rec filesystem pattern 1 current_directory "")

/-- The pathname-expansion step of `expand_word`
(`wordexp/mod.rs` lines 322–332) for one field: compile the field into a
pattern, glob it from the current directory, and keep the matches — or,
when there are none, the pattern's literal text. -/
def expand_field_pathnames (pc : PatternCompiler) (filesystem : FileSystem)
    (current_directory : String) (field : ExpandedWord) : List String :=
  let pattern := FilenamePattern.new pc field
  let files := list_files filesystem pattern current_directory
  if files.isEmpty then [pattern.text] else files

/-- C9: a field whose pattern matches zero filesystem entries expands to
the one-element list holding the field's literal text (never an error,
never an empty result), and re-running pathname expansion on any field
carrying that same text, again with zero matches, returns the same text
— no-match pathname expansion is idempotent. -/
theorem pathname_no_match_keeps_literal_and_idempotent (pc : PatternCompiler)
    (filesystem : FileSystem) (current_directory : String) (field : ExpandedWord)
    (hnomatch : list_files filesystem (FilenamePattern.new pc field) current_directory = []) :
    expand_field_pathnames pc filesystem current_directory field = [field.toStr] ∧
    expand_field_pathnames pc filesystem current_directory field ≠ [] ∧
    (∀ field2 : ExpandedWord, field2.toStr = field.toStr →
      list_files filesystem (FilenamePattern.new pc field2) current_directory = [] →
      expand_field_pathnames pc filesystem current_directory field2 = [field.toStr]) := by
  have h1 : expand_field_pathnames pc filesystem current_directory field = [field.toStr] := by
    rw [expand_field_pathnames, hnomatch]
    rfl
  refine ⟨h1, by rw [h1]; simp, ?_⟩
  intro field2 htext hnm2
  rw [expand_field_pathnames, hnm2]
  simp [FilenamePattern.new, htext]

/-- A compiler fixture for the C9 witness: one component, relative,
matching nothing. -/
def testCompiler : PatternCompiler where
  componentCountOf := fun _ => 1
  isAbsoluteOf := fun _ => false
  matcherOf := fun _ _ _ => false

/-- A filesystem fixture for the C9 witness: every directory is empty. -/
def emptyFilesystem : FileSystem := fun _ => []

/-- Witness for C9 at the field `*.c` over the empty filesystem: the
expansion keeps the literal text and is idempotent. -/
theorem pathname_no_match_keeps_literal_and_idempotent_witness :
    expand_field_pathnames testCompiler emptyFilesystem "/"
        ⟨[ExpandedWordPart.UnquotedLiteral ['*', '.', 'c']]⟩ =
      [(⟨[ExpandedWordPart.UnquotedLiteral ['*', '.', 'c']]⟩ : ExpandedWord).toStr] ∧
    expand_field_pathnames testCompiler emptyFilesystem "/"
        ⟨[ExpandedWordPart.UnquotedLiteral ['*', '.', 'c']]⟩ ≠ [] := by
  have h := pathname_no_match_keeps_literal_and_idempotent testCompiler emptyFilesystem
    "/" ⟨[ExpandedWordPart.UnquotedLiteral ['*', '.', 'c']]⟩ (by decide)
  exact ⟨h.1, h.2.1⟩
